import Mathlib

/-!
Verification of the sharded token-stream dataset engine of the GPT2_124M
repository (`dataset.py`, `train.py`, `config.py`).

The Python classes and functions are shallowly embedded as executable Lean
definitions:

* `GPT2Data.lowerStr`, `GPT2Data.containsSub` model the Python string
  operations `str.lower()` and `pat in text` used by `FineWebEdu`;
* `GPT2Data.get_shard_paths` models `FineWebEdu._get_shard_paths`;
* `GPT2Data.validSplit` / `GPT2Data.dsInit` model the split validation in
  `FineWebEdu.__init__` followed by the shard-path construction;
* `GPT2Data.lenSplit` models `FineWebEdu.__len__`;
* `GPT2Data.DS.load_shard` models `FineWebEdu._load_shard` (the capacity-1
  dictionary cache becomes an explicit association list threaded through
  the calls);
* `GPT2Data.DS.getitemFlat` models `FineWebEdu.__getitem__` up to and
  including the flat `X`, `y` assembly (lines 62-96 of `dataset.py`), and
  `GPT2Data.DS.getitem` adds the final `.view(batch_size, -1)` reshape;
* `GPT2Data.cycleNext` / `GPT2Data.cycleNth` model one `next()` step of the
  generator `cycle` and the n-th item it yields.

Machine integers are modelled as `Nat` (Python integers are unbounded, so no
wraparound is involved); Python's fallible operations (`assert`, list
indexing, `.view`) are modelled with `Option` / `Except`.

The nominal shard size `SHARD_SIZE` is imported by `dataset.py` from
`fineweb.py`, which only exists outside these sources; per the spec
(§3, §6) it is the corpus-specific constant 100,000,000 and the dataset
arithmetic treats it as a configurable parameter, so the embedding keeps
the shard size as a field `S` of `DS` and instantiates it with
`SHARD_SIZE = 100000000` where a claim fixes the concrete corpus.
-/

namespace GPT2Data

/-- Error taxonomy for the fallible dataset operations: `indexOutOfRange`
models Python's `IndexError` raised by `self.shards[shard_idx]` on an
out-of-range list index, `viewError` models the `RuntimeError` raised by
`torch.Tensor.view` on a shape mismatch. -/
inductive DSErr where
  | indexOutOfRange
  | viewError
  deriving DecidableEq, Repr

/-- The shard cache `self.cache`: a Python dict from shard path to the loaded
token buffer, modelled as an association list. -/
abbrev Cache := List (List Char × List Nat)

/-- ASCII lowercasing of one character, modelling Python `str.lower()` on the
ASCII split names used by the repository. -/
def lowerChar (c : Char) : Char :=
  if 'A' ≤ c ∧ c ≤ 'Z' then Char.ofNat (c.toNat + 32) else c

/-- Python `s.lower()` on a string modelled as a character list. -/
def lowerStr (s : List Char) : List Char := s.map lowerChar

/-- Does `text` start with `pat`? (Helper for substring containment.) -/
def startsWith : (pat text : List Char) → Bool
  | [], _ => true
  | _ :: _, [] => false
  | p :: ps, t :: ts => p == t && startsWith ps ts

/-- Python substring containment `pat in text`, used by
`FineWebEdu._get_shard_paths` as `split in f` to filter file names. -/
def containsSub : (text pat : List Char) → Bool
  | [], pat => startsWith pat []
  | c :: ts, pat => startsWith pat (c :: ts) || containsSub ts pat

/-- Path separator used when modelling `os.path.join`. -/
def sepChar : Char := '/'

/-- Models `os.path.join root f`: root, a separator, then the file name. -/
def pathJoin (root f : List Char) : List Char := root ++ sepChar :: f

/-- Embedding of `FineWebEdu._get_shard_paths` (dataset.py lines 38-49):
filter the directory listing by substring containment of the (original)
split string, join each kept name with the root, and assert the result is
non-empty (`none` models the failed `assert`, i.e. `NoShardsFoundError`).
NOTE: the source applies no sort; the output order is the listing order. -/
def get_shard_paths (root : List Char) (listing : List (List Char))
    (split : List Char) : Option (List (List Char)) :=
  let names := listing.filter (fun f => containsSub f split)
  let shards := names.map (fun f => pathJoin root f)
  if 0 < shards.length then some shards else none

/-- The split validation of `FineWebEdu.__init__` (dataset.py line 30):
`split.lower() in ["train", "val"]`. -/
def validSplit (split : List Char) : Bool :=
  lowerStr split == "train".toList || lowerStr split == "val".toList

/-- Embedding of `FineWebEdu.__init__`'s validation followed by the
shard-path construction: the `assert` on `split.lower()` then
`self.shards = self._get_shard_paths(split)`. `none` models a raised
error (failed assert or no shards found). -/
def dsInit (root : List Char) (listing : List (List Char))
    (split : List Char) : Option (List (List Char)) :=
  if validSplit split then get_shard_paths root listing split else none

/-- `LAST_SHARD_SIZE` from dataset.py line 9: token count of the final
training shard of the FineWeb-Edu sample-10BT corpus. -/
def LAST_SHARD_SIZE : Nat := 82590278

/-- Modelled from the spec: `fineweb.SHARD_SIZE`, the nominal shard token
count imported by dataset.py from the shard-writing script `fineweb.py`
which is not among these sources; the spec (§3) fixes it at 100,000,000. -/
def SHARD_SIZE : Nat := 100000000

/-- Embedding of `FineWebEdu.__len__` (dataset.py lines 113-117), with the
shard size and last-shard size as parameters (`S`, `lastS`): for
`split == "val"` exactly (original, non-lowercased string) the nominal
count `numShards * S // chunk`, otherwise the training formula
`((numShards - 1) * S + lastS) // chunk`. -/
def lenSplit (numShards B T S lastS : Nat) (split : List Char) : Nat :=
  let chunk := B * T
  if split = "val".toList then numShards * S / chunk
  else ((numShards - 1) * S + lastS) / chunk

/-- Dict lookup `path in self.cache` / `self.cache[path]`. -/
def lookupCache : Cache → List Char → Option (List Nat)
  | [], _ => none
  | (q, v) :: rest, p => if q = p then some v else lookupCache rest p

/-- The dataset state fixed at construction: `B` = `batch_size`,
`T` = `block_size`, `S` = the nominal shard size `SHARD_SIZE`,
`shards` = the shard paths built by `_get_shard_paths`, and `disk` = the
immutable on-disk token content of each path (what `np.load` returns). -/
structure DS where
  B : Nat
  T : Nat
  S : Nat
  shards : List (List Char)
  disk : List Char → List Nat

/-- The token content of each shard file, in shard order. -/
def DS.cont (d : DS) : List (List Nat) := d.shards.map d.disk

/-- The corpus token stream: the concatenation of all shard contents. -/
def DS.corpus (d : DS) : List Nat := d.cont.flatten

/-- Embedding of `FineWebEdu._load_shard` (dataset.py lines 51-60):
index the path list (raising `IndexError` when out of range), return the
cached buffer on a hit, otherwise clear the cache, load from disk and
cache the single new entry. -/
def DS.load_shard (d : DS) (cache : Cache) (shard_idx : Nat) :
    Except DSErr (List Nat × Cache) :=
  match d.shards[shard_idx]? with
  | none => .error .indexOutOfRange
  | some path =>
    match lookupCache cache path with
    | some toks => .ok (toks, cache)
    | none => .ok (d.disk path, [(path, d.disk path)])

/-- `shard_idx = global_idx // SHARD_SIZE` (dataset.py line 68). -/
def shard_index (g S : Nat) : Nat := g / S

/-- `local_idx` (dataset.py lines 69-73): measured from the start of the
last shard when `shard_idx == len(self.shards) - 1`, otherwise
`global_idx % SHARD_SIZE`. -/
def local_index (g S n : Nat) : Nat :=
  if g / S = n - 1 then g - (n - 1) * S else g % S

/-- Python slice `l[a:b]` (for `0 ≤ a ≤ b`): clamps at the list end. -/
def pySlice (l : List Nat) (a b : Nat) : List Nat := (l.drop a).take (b - a)

/-- Embedding of `FineWebEdu.__getitem__` (dataset.py lines 62-96) up to
the flat `X`, `y` assembly, before the final `.view` reshape. `rem` is
computed in `Int` exactly as the Python `chunk_size - X1.shape[0]`,
including the (unreachable) `rem < 0` branch. -/
def DS.getitemFlat (d : DS) (cache : Cache) (idx : Nat) :
    Except DSErr (List Nat × List Nat × Cache) :=
  let chunk := d.B * d.T
  let g := idx * chunk
  let sIdx := shard_index g d.S
  let localIdx := local_index g d.S d.shards.length
  match d.load_shard cache sIdx with
  | .error e => .error e
  | .ok (tokens, cache1) =>
    if tokens.length ≤ localIdx + chunk then
      let X1 := tokens.drop localIdx
      let y1 := tokens.drop (localIdx + 1)
      match d.load_shard cache1 (sIdx + 1) with
      | .error e => .error e
      | .ok (tokens2, cache2) =>
        let rem : Int := (chunk : Int) - (X1.length : Int)
        if rem = 0 then
          .ok (X1, y1 ++ tokens2.take 1, cache2)
        else if 0 < rem then
          .ok (X1 ++ tokens2.take rem.toNat,
               y1 ++ tokens2.take (rem.toNat + 1), cache2)
        else
          .ok (X1, y1, cache2)
    else
      .ok (pySlice tokens localIdx (localIdx + chunk),
           pySlice tokens (localIdx + 1) (localIdx + chunk + 1), cache1)

/-- Models `torch.Tensor.view(B, -1)` on a flat buffer of `l.length`
elements: requires `B` to divide the element count, and produces `B`
row-major rows of `l.length / B` elements each. -/
def view2d (B : Nat) (l : List Nat) : Except DSErr (List (List Nat)) :=
  if 0 < B ∧ l.length % B = 0 then
    .ok ((List.range B).map fun i => (l.drop (i * (l.length / B))).take (l.length / B))
  else .error .viewError

/-- Embedding of `FineWebEdu.__getitem__` including the final
`return X.view(self.batch_size, -1), y.view(self.batch_size, -1)`. -/
def DS.getitem (d : DS) (cache : Cache) (idx : Nat) :
    Except DSErr (List (List Nat) × List (List Nat) × Cache) :=
  match d.getitemFlat cache idx with
  | .error e => .error e
  | .ok (X, y, c) =>
    match view2d d.B X, view2d d.B y with
    | .ok Xv, .ok yv => .ok (Xv, yv, c)
    | .error e, _ => .error e
    | .ok _, .error e => .error e

/-- Entry `m[i][j]` of a reshaped batch. -/
def entry (m : List (List Nat)) (i j : Nat) : Option Nat :=
  match m[i]? with
  | some row => row[j]?
  | none => none

/-- Drop the cache component of a `getitem` result, keeping the batch (or
the error): the observable value of one `__getitem__` call. -/
def stripCache (r : Except DSErr (List (List Nat) × List (List Nat) × Cache)) :
    Except DSErr (List (List Nat) × List (List Nat)) :=
  match r with
  | .error e => .error e
  | .ok (X, y, _) => .ok (X, y)

/-- Every cache entry holds exactly the on-disk content of its path: true of
every reachable cache state, since entries are only ever created from
`np.load` of the (immutable) shard file. -/
def CacheCoherent (disk : List Char → List Nat) (cache : Cache) : Prop :=
  ∀ p v, (p, v) ∈ cache → v = disk p

/-- The cache shapes reachable in `FineWebEdu`: empty, or exactly one
path with its on-disk content. -/
def CacheWF (disk : List Char → List Nat) (cache : Cache) : Prop :=
  cache = [] ∨ ∃ q, cache = [(q, disk q)]

/-- One `next()` step of the generator `cycle` (dataset.py lines 174-185,
train.py lines 208-218), at iterator position `pos` over the underlying
finite sequence `l`: yield `l[pos]` and advance, or on `StopIteration`
reset the iterator and yield `l[0]`. `none` models the generator looping
forever on an empty iterable. -/
def cycleNext (l : List Nat) (pos : Nat) : Option (Nat × Nat) :=
  match l[pos]? with
  | some a => some (a, pos + 1)
  | none =>
    match l[0]? with
    | some a => some (a, 1)
    | none => none

/-- The item produced by the `n`-th further `next()` call on `cycle`,
starting from iterator position `pos`. -/
def cycleFrom (l : List Nat) (pos : Nat) : Nat → Option Nat
  | 0 => (cycleNext l pos).map Prod.fst
  | n + 1 =>
    match cycleNext l pos with
    | some pr => cycleFrom l pr.2 n
    | none => none

/-- The `n`-th item yielded by `cycle` over `l` (counting from 0). -/
def cycleNth (l : List Nat) (n : Nat) : Option Nat := cycleFrom l 0 n

end GPT2Data

namespace GPT2Data

/-- C2: for every global batch index, with `chunk = batch_size*block_size`
and `g = idx * chunk`, the resolved shard index is `g / S` (nominal shard
size for all shards), and the local offset is `g - (numShards-1)*S` when
the resolved shard index is the last shard's index and `g % S` otherwise. -/
theorem C2_chunk_indexer (idx B T S n : Nat) :
    shard_index (idx * (B * T)) S = idx * (B * T) / S ∧
    (shard_index (idx * (B * T)) S = n - 1 →
      local_index (idx * (B * T)) S n = idx * (B * T) - (n - 1) * S) ∧
    (shard_index (idx * (B * T)) S ≠ n - 1 →
      local_index (idx * (B * T)) S n = idx * (B * T) % S) := by
  refine ⟨rfl, ?_, ?_⟩ <;> intro h <;> simp [local_index, shard_index] at h ⊢ <;>
    simp [h]

/-- C4: `__len__` returns `numShards * SHARD_SIZE / chunk` for the
validation split and `((numShards-1) * SHARD_SIZE + LAST_SHARD_SIZE) / chunk`
for the training split; with 99 shards, `batch_size = 16`,
`block_size = 1024` the training length is
`(98 * 100000000 + 82590278) / 16384`. -/
theorem C4_len_formulas :
    (∀ n B T : Nat, lenSplit n B T SHARD_SIZE LAST_SHARD_SIZE "val".toList =
      n * SHARD_SIZE / (B * T)) ∧
    (∀ n B T : Nat, lenSplit n B T SHARD_SIZE LAST_SHARD_SIZE "train".toList =
      ((n - 1) * SHARD_SIZE + LAST_SHARD_SIZE) / (B * T)) ∧
    lenSplit 99 16 1024 SHARD_SIZE LAST_SHARD_SIZE "train".toList =
      (98 * 100000000 + 82590278) / 16384 := by
  refine ⟨fun n B T => ?_, fun n B T => ?_, ?_⟩
  · simp [lenSplit]
  · rw [lenSplit, if_neg (by decide)]
  · rw [lenSplit, if_neg (by decide)]
    rfl

/-- C3 (counter-evidence): `_get_shard_paths` preserves the order of the
directory listing and applies no sort, so the same directory contents
listed in two different orders produce two different shard enumerations —
the enumeration is not lexicographic and not independent of the listing
order. -/
theorem C3_listing_order_dependent :
    get_shard_paths [] ["train-b".toList, "train-a".toList] "train".toList =
      some [pathJoin [] "train-b".toList, pathJoin [] "train-a".toList] ∧
    get_shard_paths [] ["train-a".toList, "train-b".toList] "train".toList =
      some [pathJoin [] "train-a".toList, pathJoin [] "train-b".toList] ∧
    get_shard_paths [] ["train-b".toList, "train-a".toList] "train".toList ≠
      get_shard_paths [] ["train-a".toList, "train-b".toList] "train".toList := by
  refine ⟨by decide, by decide, by decide⟩

/-- C10: construction accepts exactly the split strings whose lowercase
form is `"train"` or `"val"`, but all later uses compare the original
string: with `split = "VAL"` construction succeeds when a file name
contains `"VAL"` (and the filter uses the original, not lowercased,
string), while `__len__` takes the training-split branch because
`"VAL" ≠ "val"`. -/
theorem C10_case_mismatch :
    (∀ split : List Char, validSplit split = true ↔
      (lowerStr split = "train".toList ∨ lowerStr split = "val".toList)) ∧
    validSplit "VAL".toList = true ∧
    dsInit "d".toList ["val_a".toList, "VAL_b".toList] "VAL".toList =
      some [pathJoin "d".toList "VAL_b".toList] ∧
    (∀ n B T S lastS : Nat, lenSplit n B T S lastS "VAL".toList =
      ((n - 1) * S + lastS) / (B * T)) := by
  refine ⟨fun split => ?_, by decide, by decide, fun n B T S lastS => ?_⟩
  · simp [validSplit]
  · rw [lenSplit, if_neg (by decide)]

theorem cycleNext_lt (l : List Nat) (pos : Nat) (h : pos < l.length) :
    cycleNext l pos = some (l[pos], pos + 1) := by
  simp [cycleNext, List.getElem?_eq_getElem h]

theorem cycleNext_ge (l : List Nat) (pos : Nat) (h0 : 0 < l.length)
    (h : l.length ≤ pos) : cycleNext l pos = some (l[0], 1) := by
  simp [cycleNext, List.getElem?_eq_none h, List.getElem?_eq_getElem h0]

theorem cycleFrom_reset (l : List Nat) (pos : Nat) (h0 : 0 < l.length)
    (h : l.length ≤ pos) : ∀ n, cycleFrom l pos n = cycleFrom l 0 n := by
  intro n
  cases n with
  | zero =>
    rw [cycleFrom, cycleFrom, cycleNext_ge l pos h0 h, cycleNext_lt l 0 h0]
  | succ n =>
    rw [cycleFrom, cycleFrom, cycleNext_ge l pos h0 h, cycleNext_lt l 0 h0]

theorem cycleFrom_mod (l : List Nat) (h0 : 0 < l.length) :
    ∀ n pos, pos < l.length → cycleFrom l pos n = l[(pos + n) % l.length]? := by
  intro n
  induction n with
  | zero =>
    intro pos hp
    rw [cycleFrom, cycleNext_lt l pos hp]
    simp [Nat.mod_eq_of_lt hp, List.getElem?_eq_getElem hp]
  | succ n ih =>
    intro pos hp
    rw [cycleFrom, cycleNext_lt l pos hp]
    show cycleFrom l (pos + 1) n = l[(pos + (n + 1)) % l.length]?
    by_cases h1 : pos + 1 < l.length
    · rw [ih (pos + 1) h1]
      congr 2
      omega
    · have h2 : pos + 1 = l.length := by omega
      rw [cycleFrom_reset l (pos + 1) h0 (by omega), ih 0 h0]
      congr 1
      have : pos + (n + 1) = l.length + n := by omega
      rw [this, Nat.add_mod_left, Nat.zero_add]

/-- C8: the n-th item yielded by `cycle` over a non-empty sequence of
length L is the item at position `n % L`, and after consuming `2L + 3`
items it has produced the items at positions
`[0..L-1, 0..L-1, 0, 1, 2]` in that order. -/
theorem C8_cycle_mod (l : List Nat) (h : 0 < l.length) :
    (∀ n, cycleNth l n = l[n % l.length]?) ∧
    (3 ≤ l.length →
      (List.range (2 * l.length + 3)).map (cycleNth l) =
        (l ++ l ++ l.take 3).map some) := by
  have hmod : ∀ n, cycleNth l n = l[n % l.length]? := by
    intro n
    rw [cycleNth, cycleFrom_mod l h n 0 h]
    simp
  refine ⟨hmod, fun h3 => ?_⟩
  apply List.ext_getElem?
  intro k
  rw [List.getElem?_map, List.getElem?_map]
  by_cases hk : k < 2 * l.length + 3
  · rw [List.getElem?_range hk]
    have heq : (l ++ l ++ l.take 3)[k]? = l[k % l.length]? := by
      by_cases c1 : k < l.length
      · rw [List.getElem?_append_left (by simp; omega),
          List.getElem?_append_left c1, Nat.mod_eq_of_lt c1]
      · by_cases c2 : k < 2 * l.length
        · have hge : l.length ≤ k := by omega
          have hlt : k - l.length < l.length := by omega
          rw [List.getElem?_append_left (by simp; omega),
            List.getElem?_append_right hge]
          have : k % l.length = k - l.length := by
            rw [Nat.mod_eq_sub_mod hge, Nat.mod_eq_of_lt hlt]
          rw [this]
        · have hge : (l ++ l).length ≤ k := by simp; omega
          rw [List.getElem?_append_right hge]
          have hlt3 : k - (l ++ l).length < 3 := by simp; omega
          rw [List.getElem?_take_of_lt hlt3]
          have hgeL : l.length ≤ k := by omega
          have hge2 : l.length ≤ k - l.length := by omega
          have hltL : k - l.length - l.length < l.length := by omega
          have h1 : k - (l ++ l).length = k - l.length - l.length := by
            simp
            omega
          have h2 : k % l.length = k - l.length - l.length := by
            rw [Nat.mod_eq_sub_mod hgeL, Nat.mod_eq_sub_mod hge2,
              Nat.mod_eq_of_lt hltL]
          rw [h1, h2]
    obtain ⟨a, ha⟩ : ∃ a, l[k % l.length]? = some a :=
      ⟨_, List.getElem?_eq_getElem (Nat.mod_lt k h)⟩
    rw [heq, ha]
    show some (cycleNth l k) = some (some a)
    rw [hmod k, ha]
  · have h1 : (List.range (2 * l.length + 3)).length ≤ k := by simp; omega
    have h2 : (l ++ l ++ l.take 3).length ≤ k := by
      simp [List.length_take]
      omega
    rw [List.getElem?_eq_none (by simpa using h1), List.getElem?_eq_none h2]
    rfl

/-- C8 witness: `cycle` over `[5, 6, 7]`. -/
theorem C8_cycle_mod_witness :
    0 < ([5, 6, 7] : List Nat).length ∧
    (∀ n, cycleNth [5, 6, 7] n = [5, 6, 7][n % 3]?) ∧
    (List.range 9).map (cycleNth [5, 6, 7]) =
      ([5, 6, 7, 5, 6, 7, 5, 6, 7] : List Nat).map some := by
  have h := C8_cycle_mod [5, 6, 7] (by decide)
  exact ⟨by decide, h.1, by have := h.2 (by decide); simpa using this⟩

theorem lookupCache_mem (cache : Cache) (p : List Char) (v : List Nat)
    (h : lookupCache cache p = some v) : (p, v) ∈ cache := by
  induction cache with
  | nil => simp [lookupCache] at h
  | cons e rest ih =>
    obtain ⟨q, w⟩ := e
    simp only [lookupCache] at h
    by_cases hq : q = p
    · rw [if_pos hq] at h
      subst hq
      cases h
      exact List.mem_cons_self _ _
    · rw [if_neg hq] at h
      exact List.mem_cons_of_mem _ (ih h)

theorem lookupCache_coherent (disk : List Char → List Nat) (cache : Cache)
    (hcoh : CacheCoherent disk cache) (p : List Char) (v : List Nat)
    (h : lookupCache cache p = some v) : v = disk p :=
  hcoh p v (lookupCache_mem cache p v h)

theorem load_shard_wf (d : DS) (cache : Cache) (k : Nat) (p : List Char)
    (hwf : CacheWF d.disk cache) (hk : d.shards[k]? = some p) :
    d.load_shard cache k = .ok (d.disk p, [(p, d.disk p)]) := by
  rcases hwf with h | ⟨q, h⟩ <;> subst h
  · simp only [DS.load_shard, hk]
    rfl
  · by_cases hq : q = p
    · subst hq
      simp [DS.load_shard, hk, lookupCache]
    · simp only [DS.load_shard, hk, lookupCache, if_neg hq]

/-- C7: after any `_load_shard(k)` call the cache holds exactly shard `k`'s
buffer and nothing else; a request for the already-resident shard returns
the cached buffer with the cache unchanged; and loading shard `k` then any
shard `k2` leaves exactly shard `k2`'s buffer resident. -/
theorem C7_cache_single_resident (d : DS) (cache : Cache) (k : Nat)
    (p : List Char) (hwf : CacheWF d.disk cache) (hk : d.shards[k]? = some p) :
    d.load_shard cache k = .ok (d.disk p, [(p, d.disk p)]) ∧
    (∀ v, lookupCache cache p = some v →
      d.load_shard cache k = .ok (v, cache)) ∧
    (∀ k2 p2, d.shards[k2]? = some p2 →
      d.load_shard [(p, d.disk p)] k2 = .ok (d.disk p2, [(p2, d.disk p2)])) := by
  refine ⟨load_shard_wf d cache k p hwf hk, fun v hv => ?_, fun k2 p2 h2 =>
    load_shard_wf d [(p, d.disk p)] k2 p2 (Or.inr ⟨p, rfl⟩) h2⟩
  simp only [DS.load_shard, hk, hv]

/-- C7 witness: a two-shard dataset, empty starting cache, shard 0 then 1. -/
theorem C7_cache_single_resident_witness :
    (let d : DS := ⟨1, 2, 3, [['a'], ['b']],
      fun p => if p = ['a'] then [0, 1, 2] else [3, 4]⟩
     d.load_shard [] 0 = .ok ([0, 1, 2], [(['a'], [0, 1, 2])]) ∧
     d.load_shard [(['a'], [0, 1, 2])] 1 = .ok ([3, 4], [(['b'], [3, 4])])) := by
  have h := C7_cache_single_resident
    ⟨1, 2, 3, [['a'], ['b']], fun p => if p = ['a'] then [0, 1, 2] else [3, 4]⟩
    [] 0 ['a'] (Or.inl rfl) (by decide)
  exact ⟨h.1, h.2.2 1 ['b'] (by decide)⟩

theorem getElem?_some_val {α : Type} (l : List α) (k : Nat) (v : α)
    (h : l[k]? = some v) : ∃ hk : k < l.length, l[k] = v := by
  have hk : k < l.length := by
    by_contra hc
    rw [List.getElem?_eq_none (by omega)] at h
    cases h
  refine ⟨hk, ?_⟩
  have h2 := List.getElem?_eq_getElem hk
  rw [h] at h2
  exact (Option.some.inj h2).symm

theorem load_shard_coherent (d : DS) (cache : Cache) (k : Nat) (p : List Char)
    (hcoh : CacheCoherent d.disk cache) (hk : d.shards[k]? = some p) :
    ∃ c', d.load_shard cache k = .ok (d.disk p, c') ∧ CacheCoherent d.disk c' := by
  cases hl : lookupCache cache p with
  | some v =>
    refine ⟨cache, ?_, hcoh⟩
    have hv := lookupCache_coherent d.disk cache hcoh p v hl
    simp only [DS.load_shard, hk, hl, hv]
  | none =>
    refine ⟨[(p, d.disk p)], ?_, ?_⟩
    · simp only [DS.load_shard, hk, hl]
    · intro q w hw
      simp only [List.mem_singleton, Prod.mk.injEq] at hw
      obtain ⟨h1, h2⟩ := hw
      subst h1
      subst h2
      rfl

theorem load_shard_err (d : DS) (cache : Cache) (k : Nat)
    (hk : d.shards[k]? = none) :
    d.load_shard cache k = .error .indexOutOfRange := by
  simp only [DS.load_shard, hk]

theorem cont_length (d : DS) : d.cont.length = d.shards.length := by
  simp [DS.cont]

theorem cont_getElem? (d : DS) (k : Nat) (p : List Char)
    (hk : d.shards[k]? = some p) : d.cont[k]? = some (d.disk p) := by
  simp [DS.cont, List.getElem?_map, hk]

theorem cont_getD (d : DS) (k : Nat) (p : List Char)
    (hk : d.shards[k]? = some p) : d.cont.getD k [] = d.disk p := by
  rw [List.getD_eq_getElem?_getD, cont_getElem? d k p hk]
  rfl

theorem flatten_drop_nominal (S : Nat) :
    ∀ (k : Nat) (c : List (List Nat)),
      (∀ i, i < k → (c.getD i []).length = S) → k ≤ c.length →
      c.flatten.drop (k * S) = (c.drop k).flatten := by
  intro k
  induction k with
  | zero =>
    intro c _ _
    simp
  | succ k ih =>
    intro c hsz hk
    cases c with
    | nil => simp at hk
    | cons a c' =>
      have ha : a.length = S := by simpa using hsz 0 (Nat.succ_pos k)
      have harith : (k + 1) * S = S + k * S := by ring
      rw [List.flatten_cons, harith, ← List.drop_drop, List.drop_left' ha,
        List.drop_succ_cons]
      exact ih c' (fun i hi => by simpa using hsz (i + 1) (by omega))
        (by simpa using hk)

theorem flatten_length_nominal (S : Nat) :
    ∀ (c : List (List Nat)),
      (∀ i, i < c.length → (c.getD i []).length = S) →
      c.flatten.length = c.length * S := by
  intro c
  induction c with
  | nil => intro _; simp
  | cons a c' ih =>
    intro hsz
    have ha : a.length = S := by simpa using hsz 0 (by simp)
    have hrec := ih (fun i hi => by simpa using hsz (i + 1) (by simpa using hi))
    simp only [List.flatten_cons, List.length_append, List.length_cons, ha, hrec]
    ring

theorem corpus_drop (d : DS) (k loc : Nat) (tokens : List Nat)
    (hsz : ∀ i, i < k → (d.cont.getD i []).length = d.S)
    (hk : d.cont[k]? = some tokens) (hloc : loc ≤ tokens.length) :
    d.corpus.drop (k * d.S + loc) =
      tokens.drop loc ++ (d.cont.drop (k + 1)).flatten := by
  obtain ⟨hklen, hkval⟩ := getElem?_some_val d.cont k tokens hk
  rw [DS.corpus, ← List.drop_drop, flatten_drop_nominal d.S k d.cont hsz
    (le_of_lt hklen), List.drop_eq_getElem_cons hklen, hkval, List.flatten_cons,
    List.drop_append_of_le_length hloc]

theorem corpus_length (d : DS) (lastLen : Nat)
    (hn : 0 < d.shards.length)
    (hsz : ∀ i, i < d.shards.length - 1 → (d.cont.getD i []).length = d.S)
    (hlast : (d.cont.getD (d.shards.length - 1) []).length = lastLen) :
    d.corpus.length = (d.shards.length - 1) * d.S + lastLen := by
  have hcl : d.cont.length = d.shards.length := cont_length d
  have hsplit : d.cont = d.cont.take (d.shards.length - 1) ++
      d.cont.drop (d.shards.length - 1) := (List.take_append_drop _ _).symm
  have hlen1 : (d.cont.take (d.shards.length - 1)).flatten.length =
      (d.shards.length - 1) * d.S := by
    have htlen : (d.cont.take (d.shards.length - 1)).length =
        d.shards.length - 1 := by
      rw [List.length_take]
      omega
    rw [flatten_length_nominal d.S _ ?_, htlen]
    intro i hi
    rw [htlen] at hi
    have : (d.cont.take (d.shards.length - 1)).getD i [] = d.cont.getD i [] := by
      rw [List.getD_eq_getElem?_getD, List.getD_eq_getElem?_getD,
        List.getElem?_take_of_lt hi]
    rw [this]
    exact hsz i hi
  have hlast_lt : d.shards.length - 1 < d.cont.length := by omega
  have hdrop : d.cont.drop (d.shards.length - 1) =
      [d.cont[d.shards.length - 1]] := by
    rw [List.drop_eq_getElem_cons hlast_lt]
    congr 1
    rw [List.drop_eq_nil_iff]
    omega
  have hlastval : d.cont[d.shards.length - 1].length = lastLen := by
    rw [List.getD_eq_getElem?_getD, List.getElem?_eq_getElem hlast_lt] at hlast
    exact hlast
  conv_lhs => rw [DS.corpus, hsplit]
  rw [List.flatten_append, List.length_append, hlen1, hdrop]
  simp [hlastval]

theorem normal_case_slices (d : DS) (g chunk sIdx localIdx : Nat) (p : List Char)
    (hszp : ∀ i, i < sIdx → (d.cont.getD i []).length = d.S)
    (hcp : d.cont[sIdx]? = some (d.disk p))
    (hgdec : sIdx * d.S + localIdx = g)
    (hlt : localIdx + chunk < (d.disk p).length) (h0 : 0 < chunk) :
    pySlice d.corpus g (g + chunk) =
      pySlice (d.disk p) localIdx (localIdx + chunk) ∧
    pySlice d.corpus (g + 1) (g + chunk + 1) =
      pySlice (d.disk p) (localIdx + 1) (localIdx + chunk + 1) := by
  have hcd := corpus_drop d sIdx localIdx (d.disk p) hszp hcp (by omega)
  have hcd1 := corpus_drop d sIdx (localIdx + 1) (d.disk p) hszp hcp (by omega)
  have hdlen : ((d.disk p).drop localIdx).length = (d.disk p).length - localIdx :=
    List.length_drop _ _
  have hdlen1 : ((d.disk p).drop (localIdx + 1)).length =
      (d.disk p).length - (localIdx + 1) := List.length_drop _ _
  constructor
  · rw [pySlice, pySlice, show g + chunk - g = chunk by omega,
      show localIdx + chunk - localIdx = chunk by omega, ← hgdec, hcd,
      List.take_append_of_le_length (by omega)]
  · rw [pySlice, pySlice, show g + chunk + 1 - (g + 1) = chunk by omega,
      show localIdx + chunk + 1 - (localIdx + 1) = chunk by omega,
      show g + 1 = sIdx * d.S + (localIdx + 1) by omega, hcd1,
      List.take_append_of_le_length (by omega)]

theorem crossing_case_slices (d : DS) (g chunk sIdx localIdx : Nat)
    (p p2 : List Char)
    (hszp : ∀ i, i < sIdx → (d.cont.getD i []).length = d.S)
    (hcp : d.cont[sIdx]? = some (d.disk p))
    (hcp2 : d.cont[sIdx + 1]? = some (d.disk p2))
    (hgdec : sIdx * d.S + localIdx = g)
    (hplen : (d.disk p).length = d.S)
    (hlocS : localIdx < d.S)
    (hcross : d.S ≤ localIdx + chunk)
    (ht2 : chunk ≤ (d.disk p2).length) (h0 : 0 < chunk) :
    pySlice d.corpus g (g + chunk) =
      (d.disk p).drop localIdx ++
        (d.disk p2).take (chunk - (d.S - localIdx)) ∧
    pySlice d.corpus (g + 1) (g + chunk + 1) =
      (d.disk p).drop (localIdx + 1) ++
        (d.disk p2).take (chunk - (d.S - localIdx) + 1) := by
  have hcd := corpus_drop d sIdx localIdx (d.disk p) hszp hcp (by omega)
  have hcd1 := corpus_drop d sIdx (localIdx + 1) (d.disk p) hszp hcp (by omega)
  obtain ⟨hlt2, hval2⟩ := getElem?_some_val d.cont (sIdx + 1) (d.disk p2) hcp2
  have hrest : (d.cont.drop (sIdx + 1)).flatten =
      d.disk p2 ++ (d.cont.drop (sIdx + 2)).flatten := by
    rw [List.drop_eq_getElem_cons hlt2, hval2, List.flatten_cons]
  have hdlen : ((d.disk p).drop localIdx).length = d.S - localIdx := by
    rw [List.length_drop, hplen]
  have hdlen1 : ((d.disk p).drop (localIdx + 1)).length = d.S - (localIdx + 1) := by
    rw [List.length_drop, hplen]
  constructor
  · rw [pySlice, show g + chunk - g = chunk by omega, ← hgdec, hcd, hrest,
      List.take_append_eq_append_take, List.take_of_length_le (by omega),
      hdlen, List.take_append_of_le_length (by omega)]
  · rw [pySlice, show g + chunk + 1 - (g + 1) = chunk by omega,
      show g + 1 = sIdx * d.S + (localIdx + 1) by omega, hcd1, hrest,
      List.take_append_eq_append_take, List.take_of_length_le (by omega),
      hdlen1, List.take_append_of_le_length (by omega),
      show chunk - (d.S - (localIdx + 1)) = chunk - (d.S - localIdx) + 1 by omega]

theorem getitemFlat_spec (d : DS) (cache : Cache) (idx lastLen : Nat)
    (hn : 0 < d.shards.length)
    (hS : 0 < d.S)
    (hB : 0 < d.B) (hT : 0 < d.T)
    (hsz : ∀ i, i < d.shards.length - 1 → (d.cont.getD i []).length = d.S)
    (hlast : (d.cont.getD (d.shards.length - 1) []).length = lastLen)
    (hlastS : lastLen ≤ d.S)
    (hchS : d.B * d.T ≤ d.S) (hchL : d.B * d.T ≤ lastLen)
    (hcoh : CacheCoherent d.disk cache)
    (hidx : idx * (d.B * d.T) + (d.B * d.T) <
      (d.shards.length - 1) * d.S + lastLen) :
    ∃ c', d.getitemFlat cache idx =
        .ok (pySlice d.corpus (idx * (d.B * d.T))
               (idx * (d.B * d.T) + d.B * d.T),
             pySlice d.corpus (idx * (d.B * d.T) + 1)
               (idx * (d.B * d.T) + d.B * d.T + 1), c') ∧
      CacheCoherent d.disk c' := by
  simp only [DS.getitemFlat]
  set n := d.shards.length with hn_def
  set chunk := d.B * d.T with hchunk_def
  set g := idx * chunk with hg_def
  set sIdx := shard_index g d.S with hsIdx_def
  set localIdx := local_index g d.S n with hloc_def
  have hchunk_pos : 0 < chunk := Nat.mul_pos hB hT
  have hdm : d.S * sIdx + g % d.S = g := by
    rw [hsIdx_def, shard_index]
    exact Nat.div_add_mod g d.S
  have hmodlt : g % d.S < d.S := Nat.mod_lt g hS
  have hdiv : g / d.S = sIdx := by
    rw [hsIdx_def, shard_index]
  have hmulS : (n - 1) * d.S = n * d.S - d.S := by
    rw [Nat.sub_mul, Nat.one_mul]
  have hSle_nS : d.S ≤ n * d.S := Nat.le_mul_of_pos_left d.S hn
  have hnS : (n - 1) * d.S + d.S = n * d.S := by omega
  have hg_lt_nS : g < n * d.S := by omega
  have hslt : sIdx < n := by
    rw [hsIdx_def, shard_index, Nat.div_lt_iff_lt_mul hS]
    exact hg_lt_nS
  have hge : d.S * sIdx ≤ g := by omega
  rcases Nat.lt_or_ge sIdx (n - 1) with hcase | hcase_ge
  · -- non-terminal shard
    have hlocval : localIdx = g % d.S := by
      rw [hloc_def, local_index, hdiv, if_neg (by omega)]
    obtain ⟨p, hp⟩ : ∃ p, d.shards[sIdx]? = some p :=
      ⟨_, List.getElem?_eq_getElem (by omega)⟩
    obtain ⟨c1, hload1, hcoh1⟩ := load_shard_coherent d cache sIdx p hcoh hp
    simp only [hload1]
    have hcp : d.cont[sIdx]? = some (d.disk p) := cont_getElem? d sIdx p hp
    have hplen : (d.disk p).length = d.S := by
      rw [← cont_getD d sIdx p hp]
      exact hsz sIdx hcase
    have hgdec : sIdx * d.S + localIdx = g := by
      rw [hlocval, Nat.mul_comm]
      exact hdm
    by_cases hbr : (d.disk p).length ≤ localIdx + chunk
    · -- shard boundary crossing
      rw [if_pos hbr]
      obtain ⟨p2, hp2⟩ : ∃ p2, d.shards[sIdx + 1]? = some p2 :=
        ⟨_, List.getElem?_eq_getElem (by omega)⟩
      obtain ⟨c2, hload2, hcoh2⟩ :=
        load_shard_coherent d c1 (sIdx + 1) p2 hcoh1 hp2
      simp only [hload2]
      have hcp2 : d.cont[sIdx + 1]? = some (d.disk p2) :=
        cont_getElem? d (sIdx + 1) p2 hp2
      have hlocS : localIdx < d.S := by
        rw [hlocval]
        exact hmodlt
      have hcross : d.S ≤ localIdx + chunk := by omega
      have ht2 : chunk ≤ (d.disk p2).length := by
        rcases Nat.lt_or_ge (sIdx + 1) (n - 1) with h2 | h2
        · have h3 := hsz (sIdx + 1) h2
          rw [cont_getD d (sIdx + 1) p2 hp2] at h3
          omega
        · have h3 : sIdx + 1 = n - 1 := by omega
          have h4 := hlast
          rw [← h3, cont_getD d (sIdx + 1) p2 hp2] at h4
          omega
      have hX1len : ((d.disk p).drop localIdx).length = d.S - localIdx := by
        rw [List.length_drop, hplen]
      obtain ⟨hXeq, hyeq⟩ := crossing_case_slices d g chunk sIdx localIdx p p2
        (fun i hi => hsz i (by omega)) hcp hcp2 hgdec hplen hlocS hcross ht2
        hchunk_pos
      by_cases hr0 : d.S - localIdx = chunk
      · have hrem0 : (chunk : Int) - (((d.disk p).drop localIdx).length : Int)
            = 0 := by
          rw [hX1len]
          omega
        rw [if_pos hrem0]
        refine ⟨c2, ?_, hcoh2⟩
        rw [hXeq, hyeq, show chunk - (d.S - localIdx) = 0 by omega]
        simp
      · have hremne : ¬ ((chunk : Int) -
            (((d.disk p).drop localIdx).length : Int) = 0) := by
          rw [hX1len]
          omega
        have hrempos : (0 : Int) < (chunk : Int) -
            (((d.disk p).drop localIdx).length : Int) := by
          rw [hX1len]
          omega
        rw [if_neg hremne, if_pos hrempos]
        refine ⟨c2, ?_, hcoh2⟩
        have htn : (((chunk : Int) -
            (((d.disk p).drop localIdx).length : Int))).toNat =
            chunk - (d.S - localIdx) := by
          rw [hX1len]
          omega
        rw [htn, hXeq, hyeq]
    · -- no crossing
      rw [if_neg hbr]
      refine ⟨c1, ?_, hcoh1⟩
      obtain ⟨hXeq, hyeq⟩ := normal_case_slices d g chunk sIdx localIdx p
        (fun i hi => hsz i (by omega)) hcp hgdec (by omega) hchunk_pos
      rw [hXeq, hyeq]
  · -- terminal (last) shard: never crosses for an in-range index
    have hA : sIdx = n - 1 := by omega
    have hlocval : localIdx = g - (n - 1) * d.S := by
      rw [hloc_def, local_index, hdiv, if_pos hA]
    obtain ⟨p, hp⟩ : ∃ p, d.shards[sIdx]? = some p :=
      ⟨_, List.getElem?_eq_getElem (by omega)⟩
    obtain ⟨c1, hload1, hcoh1⟩ := load_shard_coherent d cache sIdx p hcoh hp
    simp only [hload1]
    have hcp : d.cont[sIdx]? = some (d.disk p) := cont_getElem? d sIdx p hp
    have hplen : (d.disk p).length = lastLen := by
      rw [← cont_getD d sIdx p hp, hA]
      exact hlast
    have hgeA : (n - 1) * d.S ≤ g := by
      rw [← hA, Nat.mul_comm]
      exact hge
    have hgdec : sIdx * d.S + localIdx = g := by
      rw [hlocval, hA]
      omega
    have hbr : ¬ ((d.disk p).length ≤ localIdx + chunk) := by
      rw [hplen, hlocval]
      omega
    rw [if_neg hbr]
    refine ⟨c1, ?_, hcoh1⟩
    obtain ⟨hXeq, hyeq⟩ := normal_case_slices d g chunk sIdx localIdx p
      (fun i hi => hsz i (by omega)) hcp hgdec (by rw [hplen, hlocval]; omega)
      hchunk_pos
    rw [hXeq, hyeq]

theorem lenSplit_eq_total (n B T S lastS : Nat) (split : List Char)
    (hn : 0 < n) (hval : split = "val".toList → lastS = S) :
    lenSplit n B T S lastS split = ((n - 1) * S + lastS) / (B * T) := by
  simp only [lenSplit]
  by_cases hs : split = "val".toList
  · rw [if_pos hs, hval hs]
    congr 1
    have hmul : (n - 1) * S = n * S - S := by rw [Nat.sub_mul, Nat.one_mul]
    have hle : S ≤ n * S := Nat.le_mul_of_pos_left S hn
    omega
  · rw [if_neg hs]

theorem idx_lt_total (n B T S lastLen : Nat) (split : List Char) (idx : Nat)
    (hn : 0 < n) (hB : 0 < B) (hT : 0 < T)
    (hval : split = "val".toList → lastLen = S)
    (hidx : idx < lenSplit n B T S lastLen split)
    (hmod : ((n - 1) * S + lastLen) % (B * T) ≠ 0) :
    idx * (B * T) + (B * T) < (n - 1) * S + lastLen := by
  rw [lenSplit_eq_total n B T S lastLen split hn hval] at hidx
  have hchunk_pos : 0 < B * T := Nat.mul_pos hB hT
  have h1 : idx + 1 ≤ ((n - 1) * S + lastLen) / (B * T) := hidx
  have h2 : (idx + 1) * (B * T) ≤
      (((n - 1) * S + lastLen) / (B * T)) * (B * T) :=
    Nat.mul_le_mul_right _ h1
  have h3 := Nat.div_add_mod ((n - 1) * S + lastLen) (B * T)
  have h4 : (((n - 1) * S + lastLen) / (B * T)) * (B * T) =
      (B * T) * (((n - 1) * S + lastLen) / (B * T)) := Nat.mul_comm _ _
  have h5 : (idx + 1) * (B * T) = idx * (B * T) + (B * T) := by ring
  have h6 : ((n - 1) * S + lastLen) % (B * T) < B * T := Nat.mod_lt _ hchunk_pos
  omega

theorem pySlice_getElem? (l : List Nat) (a b k : Nat) (hk : k < b - a) :
    (pySlice l a b)[k]? = l[a + k]? := by
  rw [pySlice, List.getElem?_take_of_lt hk, List.getElem?_drop]

theorem pySlice_length (l : List Nat) (a b : Nat) (hab : a ≤ b)
    (hb : b ≤ l.length) : (pySlice l a b).length = b - a := by
  rw [pySlice, List.length_take, List.length_drop]
  omega

/-- The rows of a `[B, T]`-shaped view of a flat length-`B*T` buffer. -/
def rows2d (B T : Nat) (l : List Nat) : List (List Nat) :=
  (List.range B).map fun i => (l.drop (i * T)).take T

theorem view2d_ok (B T : Nat) (l : List Nat) (hB : 0 < B)
    (hl : l.length = B * T) : view2d B l = .ok (rows2d B T l) := by
  have hdiv : l.length / B = T := by
    rw [hl]
    exact Nat.mul_div_cancel_left T hB
  rw [view2d, if_pos ⟨hB, by rw [hl]; exact Nat.mul_mod_right B T⟩]
  simp only [hdiv, rows2d]

theorem rows2d_length (B T : Nat) (l : List Nat) : (rows2d B T l).length = B := by
  simp [rows2d]

theorem rows2d_row (B T : Nat) (l : List Nat) (i : Nat) (hi : i < B) :
    (rows2d B T l)[i]? = some ((l.drop (i * T)).take T) := by
  rw [rows2d, List.getElem?_map, List.getElem?_range hi]
  rfl

theorem rows2d_row_length (B T : Nat) (l : List Nat) (hl : l.length = B * T)
    (i : Nat) (hi : i < B) : ((rows2d B T l).getD i []).length = T := by
  rw [List.getD_eq_getElem?_getD, rows2d_row B T l i hi]
  have hle : i * T + T ≤ B * T := by
    have h1 : (i + 1) * T ≤ B * T := Nat.mul_le_mul_right T hi
    calc i * T + T = (i + 1) * T := by ring
    _ ≤ B * T := h1
  simp only [Option.getD_some, List.length_take, List.length_drop, hl]
  omega

theorem rows2d_entry (B T : Nat) (l : List Nat) (i j : Nat) (hi : i < B)
    (hj : j < T) : entry (rows2d B T l) i j = l[i * T + j]? := by
  simp only [entry, rows2d_row B T l i hi]
  rw [List.getElem?_take_of_lt hj, List.getElem?_drop]

/-- C1: for every valid global batch index `idx < length(split)`,
`get(idx)` returns input and target of shape `[batch_size, block_size]`
with `target[i][j]` the corpus token at global offset
`idx*batch_size*block_size + i*block_size + j + 1` (the flat target is the
corpus stream shifted one position past the flat input), including across
shard boundaries with no duplicated or skipped token. -/
theorem C1_getitem_correct (d : DS) (cache : Cache) (idx lastLen : Nat)
    (split : List Char)
    (hn : 0 < d.shards.length) (hS : 0 < d.S) (hB : 0 < d.B) (hT : 0 < d.T)
    (hsz : ∀ i, i < d.shards.length - 1 → (d.cont.getD i []).length = d.S)
    (hlast : (d.cont.getD (d.shards.length - 1) []).length = lastLen)
    (hlastS : lastLen ≤ d.S)
    (hchS : d.B * d.T ≤ d.S) (hchL : d.B * d.T ≤ lastLen)
    (hcoh : CacheCoherent d.disk cache)
    (hval : split = "val".toList → lastLen = d.S)
    (hidx : idx < lenSplit d.shards.length d.B d.T d.S lastLen split)
    (hmod : ((d.shards.length - 1) * d.S + lastLen) % (d.B * d.T) ≠ 0) :
    ∃ Xv yv c', d.getitem cache idx = .ok (Xv, yv, c') ∧
      Xv.length = d.B ∧ yv.length = d.B ∧
      (∀ i, i < d.B → (Xv.getD i []).length = d.T ∧
        (yv.getD i []).length = d.T) ∧
      (∀ i j, i < d.B → j < d.T →
        entry Xv i j = d.corpus[idx * (d.B * d.T) + i * d.T + j]? ∧
        entry yv i j = d.corpus[idx * (d.B * d.T) + i * d.T + j + 1]?) := by
  have hchunk_pos : 0 < d.B * d.T := Nat.mul_pos hB hT
  have hidx' := idx_lt_total d.shards.length d.B d.T d.S lastLen split idx
    hn hB hT hval hidx hmod
  obtain ⟨c', hflat, hcoh'⟩ := getitemFlat_spec d cache idx lastLen hn hS hB hT
    hsz hlast hlastS hchS hchL hcoh hidx'
  have htotlen : d.corpus.length = (d.shards.length - 1) * d.S + lastLen :=
    corpus_length d lastLen hn hsz hlast
  have hXlen : (pySlice d.corpus (idx * (d.B * d.T))
      (idx * (d.B * d.T) + d.B * d.T)).length = d.B * d.T := by
    rw [pySlice_length d.corpus _ _ (by omega) (by omega)]
    omega
  have hylen : (pySlice d.corpus (idx * (d.B * d.T) + 1)
      (idx * (d.B * d.T) + d.B * d.T + 1)).length = d.B * d.T := by
    rw [pySlice_length d.corpus _ _ (by omega) (by omega)]
    omega
  have hvX := view2d_ok d.B d.T _ hB hXlen
  have hvy := view2d_ok d.B d.T _ hB hylen
  refine ⟨rows2d d.B d.T (pySlice d.corpus (idx * (d.B * d.T))
      (idx * (d.B * d.T) + d.B * d.T)),
    rows2d d.B d.T (pySlice d.corpus (idx * (d.B * d.T) + 1)
      (idx * (d.B * d.T) + d.B * d.T + 1)), c', ?_, ?_, ?_, ?_, ?_⟩
  · simp only [DS.getitem, hflat, hvX, hvy]
  · exact rows2d_length d.B d.T _
  · exact rows2d_length d.B d.T _
  · intro i hi
    exact ⟨rows2d_row_length d.B d.T _ hXlen i hi,
      rows2d_row_length d.B d.T _ hylen i hi⟩
  · intro i j hi hj
    have hij : i * d.T + j < d.B * d.T := by
      have h1 : (i + 1) * d.T ≤ d.B * d.T := Nat.mul_le_mul_right d.T hi
      have h2 : i * d.T + d.T = (i + 1) * d.T := by ring
      omega
    constructor
    · rw [rows2d_entry d.B d.T _ i j hi hj,
        pySlice_getElem? d.corpus _ _ _ (by omega),
        show idx * (d.B * d.T) + (i * d.T + j) =
          idx * (d.B * d.T) + i * d.T + j by omega]
    · rw [rows2d_entry d.B d.T _ i j hi hj,
        pySlice_getElem? d.corpus _ _ _ (by omega),
        show idx * (d.B * d.T) + 1 + (i * d.T + j) =
          idx * (d.B * d.T) + i * d.T + j + 1 by omega]

/-- A small concrete dataset for the witnesses: two shard files of sizes 3
and 2 over the five-token corpus `[0, 1, 2, 3, 4]`, with `batch_size = 1`,
`block_size = 2` and a nominal shard size of 3. -/
def dsA : DS :=
  ⟨1, 2, 3, [['a'], ['b']], fun p => if p = ['a'] then [0, 1, 2] else [3, 4]⟩

/-- C1 witness: batch index 1 of `dsA` crosses the shard boundary; all
hypotheses are discharged on this concrete instance. -/
theorem C1_getitem_correct_witness :
    (0 < dsA.shards.length ∧ 1 < lenSplit dsA.shards.length dsA.B dsA.T dsA.S 2
      "train".toList) ∧
    (∃ Xv yv c', dsA.getitem [] 1 = .ok (Xv, yv, c') ∧
      Xv.length = dsA.B ∧ yv.length = dsA.B ∧
      (∀ i, i < dsA.B → (Xv.getD i []).length = dsA.T ∧
        (yv.getD i []).length = dsA.T) ∧
      (∀ i j, i < dsA.B → j < dsA.T →
        entry Xv i j = dsA.corpus[1 * (dsA.B * dsA.T) + i * dsA.T + j]? ∧
        entry yv i j = dsA.corpus[1 * (dsA.B * dsA.T) + i * dsA.T + j + 1]?)) := by
  refine ⟨⟨by decide, by decide⟩, ?_⟩
  exact C1_getitem_correct dsA [] 1 2 "train".toList (by decide) (by decide)
    (by decide) (by decide) (by decide) (by decide) (by decide) (by decide)
    (by decide) (fun p v h => absurd h (List.not_mem_nil (p, v)))
    (by decide) (by decide) (by decide)

/-- C5: for every batch index at or beyond the declared length of the
split, `get(idx)` fails with an `IndexOutOfRange` error (Python's
`IndexError` from `self.shards[shard_idx]`) rather than returning a batch
assembled from out-of-range positions. -/
theorem C5_out_of_range (d : DS) (cache : Cache) (idx lastLen : Nat)
    (split : List Char)
    (hn : 0 < d.shards.length) (hS : 0 < d.S) (hB : 0 < d.B) (hT : 0 < d.T)
    (hlast : (d.cont.getD (d.shards.length - 1) []).length = lastLen)
    (hchL : d.B * d.T ≤ lastLen)
    (hcoh : CacheCoherent d.disk cache)
    (hval : split = "val".toList → lastLen = d.S)
    (hidx : lenSplit d.shards.length d.B d.T d.S lastLen split ≤ idx) :
    d.getitem cache idx = .error .indexOutOfRange := by
  have hchunk_pos0 : 0 < d.B * d.T := Nat.mul_pos hB hT
  have hg_gt0 : (d.shards.length - 1) * d.S + lastLen <
      idx * (d.B * d.T) + (d.B * d.T) := by
    rw [lenSplit_eq_total d.shards.length d.B d.T d.S lastLen split hn hval]
      at hidx
    have hq := Nat.div_add_mod ((d.shards.length - 1) * d.S + lastLen)
      (d.B * d.T)
    have hmod_lt : ((d.shards.length - 1) * d.S + lastLen) % (d.B * d.T) <
        d.B * d.T := Nat.mod_lt _ hchunk_pos0
    have hmm : (((d.shards.length - 1) * d.S + lastLen) / (d.B * d.T)) *
        (d.B * d.T) ≤ idx * (d.B * d.T) := Nat.mul_le_mul_right _ hidx
    have hmc : (((d.shards.length - 1) * d.S + lastLen) / (d.B * d.T)) *
        (d.B * d.T) = (d.B * d.T) *
        (((d.shards.length - 1) * d.S + lastLen) / (d.B * d.T)) :=
      Nat.mul_comm _ _
    omega
  have hg_ge0 : (d.shards.length - 1) * d.S ≤ idx * (d.B * d.T) := by omega
  have hflat : d.getitemFlat cache idx = .error .indexOutOfRange := by
    simp only [DS.getitemFlat]
    set n := d.shards.length with hn_def
    set chunk := d.B * d.T with hchunk_def
    set g := idx * chunk with hg_def
    set sIdx := shard_index g d.S with hsIdx_def
    set localIdx := local_index g d.S n with hloc_def
    have hchunk_pos : 0 < chunk := hchunk_pos0
    have hg_gt : (n - 1) * d.S + lastLen < g + chunk := hg_gt0
    have hg_ge2 : (n - 1) * d.S ≤ g := hg_ge0
    have hdiv : g / d.S = sIdx := by
      rw [hsIdx_def, shard_index]
    have hsIdx_ge : n - 1 ≤ sIdx := by
      rw [hsIdx_def, shard_index]
      exact (Nat.le_div_iff_mul_le hS).mpr hg_ge2
    rcases Nat.lt_or_ge sIdx n with hlt | hge_n
    · have hA : sIdx = n - 1 := by omega
      obtain ⟨p, hp⟩ : ∃ p, d.shards[sIdx]? = some p :=
        ⟨_, List.getElem?_eq_getElem (by omega)⟩
      obtain ⟨c1, hload1, hcoh1⟩ := load_shard_coherent d cache sIdx p hcoh hp
      simp only [hload1]
      have hplen : (d.disk p).length = lastLen := by
        rw [← cont_getD d sIdx p hp, hA]
        exact hlast
      have hlocval : localIdx = g - (n - 1) * d.S := by
        rw [hloc_def, local_index, hdiv, if_pos hA]
      have hbr : (d.disk p).length ≤ localIdx + chunk := by
        rw [hplen, hlocval]
        omega
      rw [if_pos hbr]
      have hnone : d.shards[sIdx + 1]? = none :=
        List.getElem?_eq_none (by omega)
      rw [load_shard_err d c1 (sIdx + 1) hnone]
    · have hnone : d.shards[sIdx]? = none :=
        List.getElem?_eq_none (by omega)
      rw [load_shard_err d cache sIdx hnone]
  simp only [DS.getitem, hflat]

/-- C5 witness: `dsA` has declared training length 2; index 2 errors. -/
theorem C5_out_of_range_witness :
    lenSplit dsA.shards.length dsA.B dsA.T dsA.S 2 "train".toList ≤ 2 ∧
    dsA.getitem [] 2 = .error .indexOutOfRange := by
  refine ⟨by decide, ?_⟩
  exact C5_out_of_range dsA [] 2 2 "train".toList (by decide) (by decide)
    (by decide) (by decide) (by decide) (by decide)
    (fun p v h => absurd h (List.not_mem_nil (p, v))) (by decide) (by decide)

/-- C6: in the boundary-crossing sub-case where the available tokens of the
current shard from the local offset exactly fill the chunk (`rem == 0`),
`get` takes exactly one token from the head of the next shard for the
target and leaves the input unchanged: the returned input is entirely
current-shard tokens and the returned target's last token is the next
shard's first token. -/
theorem C6_exact_fill (d : DS) (cache : Cache) (idx : Nat) (p p2 : List Char)
    (hp : d.shards[shard_index (idx * (d.B * d.T)) d.S]? = some p)
    (hp2 : d.shards[shard_index (idx * (d.B * d.T)) d.S + 1]? = some p2)
    (hcoh : CacheCoherent d.disk cache)
    (hfill : (d.disk p).length =
      local_index (idx * (d.B * d.T)) d.S d.shards.length + d.B * d.T)
    (hne : 0 < (d.disk p2).length) :
    ∃ c' h2, (d.disk p2)[0]? = some h2 ∧
      d.getitemFlat cache idx = .ok (
        (d.disk p).drop (local_index (idx * (d.B * d.T)) d.S d.shards.length),
        ((d.disk p).drop
          (local_index (idx * (d.B * d.T)) d.S d.shards.length + 1)) ++ [h2],
        c') ∧
      (((d.disk p).drop
          (local_index (idx * (d.B * d.T)) d.S d.shards.length + 1)) ++
        [h2]).getLast? = some h2 := by
  simp only [DS.getitemFlat]
  set n := d.shards.length with hn_def
  set chunk := d.B * d.T with hchunk_def
  set g := idx * chunk with hg_def
  set sIdx := shard_index g d.S with hsIdx_def
  set localIdx := local_index g d.S n with hloc_def
  obtain ⟨c1, hload1, hcoh1⟩ := load_shard_coherent d cache sIdx p hcoh hp
  simp only [hload1]
  have hbr : (d.disk p).length ≤ localIdx + chunk := le_of_eq hfill
  rw [if_pos hbr]
  obtain ⟨c2, hload2, hcoh2⟩ := load_shard_coherent d c1 (sIdx + 1) p2 hcoh1 hp2
  simp only [hload2]
  have hX1len : ((d.disk p).drop localIdx).length = chunk := by
    rw [List.length_drop, hfill]
    omega
  have hrem0 : (chunk : Int) - (((d.disk p).drop localIdx).length : Int) = 0 := by
    rw [hX1len]
    omega
  rw [if_pos hrem0]
  obtain ⟨a, t2, ht2⟩ : ∃ a t2, d.disk p2 = a :: t2 := by
    cases hdp : d.disk p2 with
    | nil =>
      rw [hdp] at hne
      simp at hne
    | cons a t => exact ⟨a, t, rfl⟩
  refine ⟨c2, a, ?_, ?_, List.getLast?_concat _⟩
  · rw [ht2]
    exact List.getElem?_cons_zero
  · rw [ht2]
    rfl

/-- A second concrete dataset for the exact-fill witness: shard sizes 4 and
2 with `chunk = 2`, so batch index 1 ends exactly at shard 0's boundary. -/
def dsB : DS :=
  ⟨1, 2, 4, [['a'], ['b']], fun p => if p = ['a'] then [0, 1, 2, 3] else [4, 5]⟩

/-- C6 witness: on `dsB`, batch index 1 exactly fills the chunk from shard 0
and takes a single target token from shard 1. -/
theorem C6_exact_fill_witness :
    (dsB.disk [Char.ofNat 97]).length =
      local_index (1 * (dsB.B * dsB.T)) dsB.S dsB.shards.length +
        dsB.B * dsB.T ∧
    (∃ c' h2, (dsB.disk [Char.ofNat 98])[0]? = some h2 ∧
      dsB.getitemFlat [] 1 = .ok (
        (dsB.disk [Char.ofNat 97]).drop
          (local_index (1 * (dsB.B * dsB.T)) dsB.S dsB.shards.length),
        ((dsB.disk [Char.ofNat 97]).drop
          (local_index (1 * (dsB.B * dsB.T)) dsB.S dsB.shards.length + 1)) ++
          [h2], c') ∧
      (((dsB.disk [Char.ofNat 97]).drop
          (local_index (1 * (dsB.B * dsB.T)) dsB.S dsB.shards.length + 1)) ++
        [h2]).getLast? = some h2) := by
  refine ⟨by decide, ?_⟩
  exact C6_exact_fill dsB [] 1 [Char.ofNat 97] [Char.ofNat 98]
    (by decide) (by decide)
    (fun p v h => absurd h (List.not_mem_nil (p, v))) (by decide) (by decide)

/-- C9: the batch returned by `get(idx)` does not depend on the cache state
at call time: any two coherent starting caches (empty, or holding any
previously loaded shard buffer) yield identical input and target tensors,
so repeated passes over the same index sequence yield identical batches. -/
theorem C9_cache_independent (d : DS) (c1 c2 : Cache) (idx lastLen : Nat)
    (split : List Char)
    (hn : 0 < d.shards.length) (hS : 0 < d.S) (hB : 0 < d.B) (hT : 0 < d.T)
    (hsz : ∀ i, i < d.shards.length - 1 → (d.cont.getD i []).length = d.S)
    (hlast : (d.cont.getD (d.shards.length - 1) []).length = lastLen)
    (hlastS : lastLen ≤ d.S)
    (hchS : d.B * d.T ≤ d.S) (hchL : d.B * d.T ≤ lastLen)
    (hcoh1 : CacheCoherent d.disk c1) (hcoh2 : CacheCoherent d.disk c2)
    (hval : split = "val".toList → lastLen = d.S)
    (hidx : idx < lenSplit d.shards.length d.B d.T d.S lastLen split)
    (hmod : ((d.shards.length - 1) * d.S + lastLen) % (d.B * d.T) ≠ 0) :
    stripCache (d.getitem c1 idx) = stripCache (d.getitem c2 idx) := by
  have hidx' := idx_lt_total d.shards.length d.B d.T d.S lastLen split idx
    hn hB hT hval hidx hmod
  obtain ⟨ca, hfa, _⟩ := getitemFlat_spec d c1 idx lastLen hn hS hB hT
    hsz hlast hlastS hchS hchL hcoh1 hidx'
  obtain ⟨cb, hfb, _⟩ := getitemFlat_spec d c2 idx lastLen hn hS hB hT
    hsz hlast hlastS hchS hchL hcoh2 hidx'
  simp only [DS.getitem, hfa, hfb]
  rcases view2d d.B (pySlice d.corpus (idx * (d.B * d.T))
      (idx * (d.B * d.T) + d.B * d.T)) with e | Xv <;>
    rcases view2d d.B (pySlice d.corpus (idx * (d.B * d.T) + 1)
      (idx * (d.B * d.T) + d.B * d.T + 1)) with e2 | yv <;> rfl

/-- C9 witness: `dsA` at index 1, from the empty cache and from a cache
holding shard 0's buffer. -/
theorem C9_cache_independent_witness :
    CacheCoherent dsA.disk [([Char.ofNat 97], [0, 1, 2])] ∧
    stripCache (dsA.getitem [] 1) =
      stripCache (dsA.getitem [([Char.ofNat 97], [0, 1, 2])] 1) := by
  have hcoh2 : CacheCoherent dsA.disk [([Char.ofNat 97], [0, 1, 2])] := by
    intro p v h
    simp only [List.mem_singleton, Prod.mk.injEq] at h
    obtain ⟨h1, h2⟩ := h
    subst h1
    subst h2
    rfl
  refine ⟨hcoh2, ?_⟩
  exact C9_cache_independent dsA [] [([Char.ofNat 97], [0, 1, 2])] 1 2
    "train".toList (by decide) (by decide) (by decide) (by decide) (by decide)
    (by decide) (by decide) (by decide) (by decide)
    (fun p v h => absurd h (List.not_mem_nil (p, v))) hcoh2 (by decide)
    (by decide) (by decide)

/-- C2 witness: concrete offsets exercising both the last-shard branch
(`n = 5`) and the non-terminal branch (`n = 2`) of the local-offset rule. -/
theorem C2_chunk_indexer_witness :
    (shard_index (7 * (1 * 2)) 3 = 7 * (1 * 2) / 3 ∧
      local_index (7 * (1 * 2)) 3 5 = 7 * (1 * 2) - (5 - 1) * 3) ∧
    local_index (7 * (1 * 2)) 3 2 = 7 * (1 * 2) % 3 := by
  have h5 := C2_chunk_indexer 7 1 2 3 5
  have h2 := C2_chunk_indexer 7 1 2 3 2
  exact ⟨⟨h5.1, h5.2.1 (by decide)⟩, h2.2.2 (by decide)⟩
